import Mathlib

/-!
Shallow embedding of the aip-proxy request pipeline
(`src/aip_proxy/cache.py`, `src/aip_proxy/compressor.py`,
`src/aip_proxy/server.py`) and proofs about it.

Modelling conventions:
* Python JSON values are the inductive `Json` below; rationals stand for
  floats, `List Char` for the characters of a Python `str`.
* Python dicts are association lists with dict semantics: lookup finds the
  first (unique, for real dicts) occurrence, item assignment replaces the
  value in place keeping the key's position, `del` removes the entry.
* `time.time()` is an explicit `now : ℚ` argument.
* The cache key (`sha256(json.dumps(..., sort_keys=True))[:16]`) is
  modelled as an unambiguous serialization of the keyed fields, an ideal
  collision-free stand-in for the truncated hash; `md5` in the
  deduplication pass is an abstract function argument.
* Raising an exception is modelled with `Except`/`Option` results; the
  cumulative character counters of the compressor and the stats tracker do
  not affect any returned value and are not modelled.
-/

namespace AipProxy

/-- A JSON value as produced by `json.loads`. -/
inductive Json where
  | null
  | bool (b : Bool)
  | num (q : ℚ)
  | str (s : List Char)
  | arr (elems : List Json)
  | obj (fields : List (String × Json))

/-- A JSON object (Python dict), as an ordered association list. -/
abbrev Obj := List (String × Json)

/-- Dict lookup: `d.get(k)` / `d[k]`, first matching key. -/
def alookup {κ α : Type} [DecidableEq κ] : List (κ × α) → κ → Option α
  | [], _ => none
  | (k', v) :: r, k => if k' = k then some v else alookup r k

/-- Dict item assignment `d[k] = v`: replace in place, else append. -/
def aset {κ α : Type} [DecidableEq κ] (k : κ) (v : α) :
    List (κ × α) → List (κ × α)
  | [] => [(k, v)]
  | (k', v') :: r => if k' = k then (k, v) :: r else (k', v') :: aset k v r

/-- Dict deletion `del d[k]`: remove the (first) entry for `k`. -/
def aerase {κ α : Type} [DecidableEq κ] (k : κ) :
    List (κ × α) → List (κ × α)
  | [] => []
  | (k', v') :: r => if k' = k then r else (k', v') :: aerase k r

/-- `d.get(k, default)`. -/
def alookupD {κ α : Type} [DecidableEq κ] (l : List (κ × α)) (k : κ)
    (d : α) : α :=
  (alookup l k).getD d

/-! ## `cache.py`: `ResponseCache` -/

mutual

/-- Unambiguous serialization of a JSON value, standing in for
`json.dumps(..., sort_keys=True, default=str)` followed by the sha256
fingerprint: an ideal, collision-free hash of the canonical content. -/
def jdump : Json → List Char
  | .null => ['n']
  | .bool b => if b then ['t'] else ['f']
  | .num q => 'q' :: (toString q).data
  | .str s => 's' :: (toString s.length).data ++ ':' :: s
  | .arr l => '[' :: jdumpL l ++ [']']
  | .obj o => '\x7b' :: jdumpO o ++ ['\x7d']

/-- Serialize the elements of a JSON array. -/
def jdumpL : List Json → List Char
  | [] => []
  | j :: r => jdump j ++ ',' :: jdumpL r

/-- Serialize the fields of a JSON object. -/
def jdumpO : List (String × Json) → List Char
  | [] => []
  | (k, v) :: r =>
    's' :: (toString k.length).data ++ ':' :: k.data ++ '=' :: jdump v
      ++ ',' :: jdumpO r

end

/-- One stored cache entry: `{"data": ..., "ts": ...}`. -/
structure Entry where
  data : Json
  ts : ℚ

/-- The cache key produced by `_make_key`. -/
abbrev CKey := List Char

/-- The cache: configuration, entry store `_cache`, and `_stats`. -/
structure ResponseCache where
  enabled : Bool
  ttl : ℚ
  max_size : ℕ
  cache : List (CKey × Entry)
  hits : ℕ
  misses : ℕ
  evictions : ℕ

/-- `ResponseCache.__init__`. -/
def ResponseCache.init (enabled : Bool) (ttl : ℚ) (max_size : ℕ) :
    ResponseCache :=
  ⟨enabled, ttl, max_size, [], 0, 0, 0⟩

/-- `_make_key`: fingerprint of model + messages + temperature (default
1.0) + max_tokens. -/
def make_key (r : Obj) : CKey :=
  jdump (Json.arr
    [alookupD r "model" (Json.str []),
     alookupD r "messages" (Json.arr []),
     alookupD r "temperature" (Json.num 1),
     alookupD r "max_tokens" Json.null])

/-- `ResponseCache.get`: returns the looked-up payload and the cache state
after the call. -/
def ResponseCache.get (c : ResponseCache) (r : Obj) (now : ℚ) :
    Option Json × ResponseCache :=
  if ¬ c.enabled then (none, c)
  else
    match alookup c.cache (make_key r) with
    | none => (none, { c with misses := c.misses + 1 })
    | some e =>
      if now - e.ts > c.ttl then
        (none, { c with cache := aerase (make_key r) c.cache,
                        misses := c.misses + 1 })
      else
        (some e.data,
         { c with cache := aset (make_key r) { e with ts := now } c.cache,
                  hits := c.hits + 1 })

/-- Exceptions `ResponseCache.put` can raise: `ValueError` from `min()` on
an empty dict, `TypeError` from ordering a non-numeric temperature. -/
inductive PutErr where
  | valueErr
  | typeErr
  deriving DecidableEq

/-- `temp is not None and temp > 0` (`.ok true` means: skip storing).
Python booleans are numeric (`True > 0`); comparing a string, list or dict
with `0` raises `TypeError`. -/
def tempSkips : Json → Except PutErr Bool
  | Json.null => .ok false
  | Json.bool b => .ok b
  | Json.num q => .ok (decide (0 < q))
  | _ => .error .typeErr

/-- The entry in `_cache` with the smallest `ts`, earliest-inserted first on
ties — `min(self._cache, key=lambda k: self._cache[k]["ts"])`. -/
def oldestPair : List (CKey × Entry) → Option (CKey × Entry)
  | [] => none
  | p :: rest =>
    match oldestPair rest with
    | none => some p
    | some q => if q.2.ts < p.2.ts then some q else some p

/-- `ResponseCache.put`. -/
def ResponseCache.put (c : ResponseCache) (r : Obj) (resp : Json)
    (now : ℚ) : Except PutErr ResponseCache :=
  if ¬ c.enabled then .ok c
  else
    match tempSkips (alookupD r "temperature" (Json.num 1)) with
    | .error e => .error e
    | .ok true => .ok c
    | .ok false =>
      if c.cache.length ≥ c.max_size ∧
          (alookup c.cache (make_key r)).isNone then
        match oldestPair c.cache with
        | none => .error .valueErr
        | some p =>
          .ok { c with cache := aset (make_key r) ⟨resp, now⟩
                                  (aerase p.1 c.cache),
                       evictions := c.evictions + 1 }
      else
        .ok { c with cache := aset (make_key r) ⟨resp, now⟩ c.cache }

/-- `ResponseCache.clear`: drop all entries, keep the counters. -/
def ResponseCache.clear (c : ResponseCache) : ResponseCache :=
  { c with cache := [] }

/-- The cache states reachable by any sequence of operations from a freshly
constructed cache (a `put` that raises produces no state). -/
inductive Reach : ResponseCache → Prop
  | init (enabled : Bool) (ttl : ℚ) (max_size : ℕ) :
      Reach (ResponseCache.init enabled ttl max_size)
  | step_get {c : ResponseCache} {r : Obj} {now : ℚ} :
      Reach c → Reach (c.get r now).2
  | step_put {c c' : ResponseCache} {r : Obj} {resp : Json} {now : ℚ} :
      Reach c → c.put r resp now = .ok c' → Reach c'
  | step_clear {c : ResponseCache} : Reach c → Reach c.clear

example : (ResponseCache.init true 300 2).put [("temperature", Json.num 0)]
    Json.null 0 =
    .ok ⟨true, 300, 2,
      [(make_key [("temperature", Json.num 0)], ⟨Json.null, 0⟩)],
      0, 0, 0⟩ := rfl

example : ((ResponseCache.init true 300 2).get [] 5).2.misses = 1 := rfl

example : (ResponseCache.init true 300 0).put [("temperature", Json.num 0)]
    Json.null 0 = .error .valueErr := rfl

example : (ResponseCache.init true 300 2).put [("model", Json.str ['m'])]
    Json.null 0 = .ok (ResponseCache.init true 300 2) := rfl

/-! ### Association-list and `oldestPair` lemmas -/

theorem alookup_aset_self {κ α : Type} [DecidableEq κ] (k : κ) (v : α)
    (l : List (κ × α)) : alookup (aset k v l) k = some v := by
  induction l with
  | nil => simp [aset, alookup]
  | cons p r ih =>
    obtain ⟨k', v'⟩ := p
    by_cases h : k' = k
    · simp [aset, alookup, h]
    · simp [aset, alookup, h, ih]

theorem length_aset_isNone {κ α : Type} [DecidableEq κ] {k : κ} (v : α)
    {l : List (κ × α)} (h : (alookup l k).isNone) :
    (aset k v l).length = l.length + 1 := by
  induction l with
  | nil => simp [aset]
  | cons p r ih =>
    obtain ⟨k', v'⟩ := p
    by_cases hk : k' = k
    · simp [alookup, hk] at h
    · simp only [alookup, hk, if_false] at h
      simp [aset, hk, ih h]

theorem length_aset_isSome {κ α : Type} [DecidableEq κ] {k : κ} (v : α)
    {l : List (κ × α)} (h : (alookup l k).isSome) :
    (aset k v l).length = l.length := by
  induction l with
  | nil => simp [alookup] at h
  | cons p r ih =>
    obtain ⟨k', v'⟩ := p
    by_cases hk : k' = k
    · simp [aset, hk]
    · simp only [alookup, hk, if_false] at h
      simp [aset, hk, ih h]

theorem length_aerase_le {κ α : Type} [DecidableEq κ] (k : κ)
    (l : List (κ × α)) : (aerase k l).length ≤ l.length := by
  induction l with
  | nil => simp [aerase]
  | cons p r ih =>
    obtain ⟨k', v'⟩ := p
    by_cases hk : k' = k
    · simp [aerase, hk]
    · simp only [aerase, hk, if_false, List.length_cons]
      omega

theorem length_aerase_isSome {κ α : Type} [DecidableEq κ] {k : κ}
    {l : List (κ × α)} (h : (alookup l k).isSome) :
    (aerase k l).length + 1 = l.length := by
  induction l with
  | nil => simp [alookup] at h
  | cons p r ih =>
    obtain ⟨k', v'⟩ := p
    by_cases hk : k' = k
    · simp [aerase, hk]
    · simp only [alookup, hk, if_false] at h
      simp [aerase, hk, ih h]

theorem alookup_isSome_of_mem {κ α : Type} [DecidableEq κ]
    {p : κ × α} {l : List (κ × α)} (h : p ∈ l) :
    (alookup l p.1).isSome := by
  induction l with
  | nil => simp at h
  | cons q r ih =>
    obtain ⟨k', v'⟩ := q
    by_cases hk : k' = p.1
    · simp [alookup, hk]
    · simp only [alookup, hk, if_false]
      rcases List.mem_cons.mp h with h1 | h1
      · subst h1; simp at hk
      · exact ih h1

theorem alookup_aerase_isNone {κ α : Type} [DecidableEq κ] (k k' : κ)
    {l : List (κ × α)} (h : (alookup l k).isNone) :
    (alookup (aerase k' l) k).isNone := by
  induction l with
  | nil => simp [aerase, alookup]
  | cons p r ih =>
    obtain ⟨k₀, v₀⟩ := p
    by_cases h0 : k₀ = k
    · simp [alookup, h0] at h
    · simp only [alookup, h0, if_false] at h
      by_cases h1 : k₀ = k'
      · simpa [aerase, h1] using h
      · simpa [aerase, h1, alookup, h0] using ih h

theorem oldestPair_eq_none {l : List (CKey × Entry)} :
    oldestPair l = none ↔ l = [] := by
  cases l with
  | nil => simp [oldestPair]
  | cons p r =>
    simp only [oldestPair]
    cases oldestPair r with
    | none => simp
    | some q => by_cases h : q.2.ts < p.2.ts <;> simp [h]

theorem oldestPair_mem {l : List (CKey × Entry)} {p : CKey × Entry}
    (h : oldestPair l = some p) : p ∈ l := by
  induction l with
  | nil => simp [oldestPair] at h
  | cons q r ih =>
    cases hr : oldestPair r with
    | none =>
      simp only [oldestPair, hr] at h
      simp at h; simp [h]
    | some p' =>
      simp only [oldestPair, hr] at h
      by_cases hlt : p'.2.ts < q.2.ts
      · rw [if_pos hlt] at h
        simp at h; subst h
        exact List.mem_cons_of_mem _ (ih hr)
      · rw [if_neg hlt] at h
        simp at h; simp [h]

theorem oldestPair_min {l : List (CKey × Entry)} {p : CKey × Entry}
    (h : oldestPair l = some p) : ∀ x ∈ l, p.2.ts ≤ x.2.ts := by
  induction l generalizing p with
  | nil => simp [oldestPair] at h
  | cons q r ih =>
    intro x hx
    cases hr : oldestPair r with
    | none =>
      have hre : r = [] := oldestPair_eq_none.mp hr
      subst hre
      simp only [oldestPair] at h
      simp at h
      simp at hx
      rw [← h, hx]
    | some p' =>
      simp only [oldestPair, hr] at h
      by_cases hlt : p'.2.ts < q.2.ts
      · rw [if_pos hlt, Option.some_inj] at h
        rcases List.mem_cons.mp hx with h1 | h1
        · rw [← h, h1]; exact le_of_lt hlt
        · rw [← h]; exact ih hr x h1
      · rw [if_neg hlt, Option.some_inj] at h
        rcases List.mem_cons.mp hx with h1 | h1
        · rw [← h, h1]
        · rw [← h]
          exact le_trans (not_lt.mp hlt) (ih hr x h1)

theorem oldestPair_isSome {l : List (CKey × Entry)} (h : l ≠ []) :
    (oldestPair l).isSome := by
  cases hl : oldestPair l with
  | none => exact absurd (oldestPair_eq_none.mp hl) h
  | some p => simp

/-! ### Cache claims -/

/-- Claim C10: on a disabled cache, `get` returns absent without touching
the hit or miss counters, and `put` leaves the store and all counters
unchanged. -/
theorem c10_disabled_noop (c : ResponseCache) (r : Obj) (p : Json)
    (now : ℚ) (h : c.enabled = false) :
    c.get r now = (none, c) ∧ c.put r p now = .ok c := by
  constructor
  · simp [ResponseCache.get, h]
  · simp [ResponseCache.put, h]

/-- Witness for `c10_disabled_noop` on a concrete disabled cache. -/
theorem c10_disabled_noop_w :
    (ResponseCache.init false 300 200).get [("temperature", Json.num 0)] 7
      = (none, ResponseCache.init false 300 200) ∧
    (ResponseCache.init false 300 200).put [("temperature", Json.num 0)]
      Json.null 7 = .ok (ResponseCache.init false 300 200) :=
  c10_disabled_noop _ _ _ _ rfl

/-- Claim C3: on an enabled cache holding an entry for the request's key,
an expired lookup (`now - last_touched > ttl`) returns absent, purges the
entry and bumps the miss counter; a fresh lookup refreshes `last_touched`,
returns the stored payload and bumps the hit counter. -/
theorem c3_lookup_expiry_and_hit (c : ResponseCache) (r : Obj) (now : ℚ)
    (e : Entry) (hen : c.enabled = true)
    (hfound : alookup c.cache (make_key r) = some e) :
    (now - e.ts > c.ttl →
      c.get r now = (none, { c with cache := aerase (make_key r) c.cache,
                                    misses := c.misses + 1 })) ∧
    (now - e.ts ≤ c.ttl →
      c.get r now =
        (some e.data,
         { c with cache := aset (make_key r) ⟨e.data, now⟩ c.cache,
                  hits := c.hits + 1 })) := by
  constructor
  · intro hexp
    simp [ResponseCache.get, hen, hfound, hexp]
  · intro hfresh
    simp [ResponseCache.get, hen, hfound, not_lt.mpr hfresh]

/-- Witness for `c3_lookup_expiry_and_hit` on a concrete one-entry cache
with `ttl = 300` and an entry stored at time 0, looked up at times 400
(expired) and 100 (fresh). -/
theorem c3_lookup_expiry_and_hit_w :
    ((⟨true, 300, 200, [(make_key [], ⟨Json.bool true, 0⟩)], 0, 0, 0⟩ :
        ResponseCache).get [] 400).1 = none ∧
    ((⟨true, 300, 200, [(make_key [], ⟨Json.bool true, 0⟩)], 0, 0, 0⟩ :
        ResponseCache).get [] 100).1 = some (Json.bool true) := by
  constructor
  · rw [(c3_lookup_expiry_and_hit _ [] 400 ⟨Json.bool true, 0⟩ rfl
      (alookup_aset_self _ _ [])).1 (by norm_num)]
  · rw [(c3_lookup_expiry_and_hit _ [] 100 ⟨Json.bool true, 0⟩ rfl
      (alookup_aset_self _ _ [])).2 (by norm_num)]

/-- Claim C1 as stated is false at a request with an absent `temperature`
field: `_make_key`'s default keys it as 1.0 and `put`'s guard
(`temp > 0`) therefore skips storing it, so a `put` followed by a `get`
within the TTL returns absent, not the stored payload. -/
theorem c1_roundtrip_counterexample :
    (ResponseCache.init true 300 200).put [("model", Json.str ['m'])]
        (Json.bool true) 0 = .ok (ResponseCache.init true 300 200) ∧
    ((ResponseCache.init true 300 200).get [("model", Json.str ['m'])] 1).1
      = none :=
  ⟨rfl, rfl⟩

/-- Claim C1, amended: on an enabled cache, a request whose `temperature`
field is present and exactly 0 round-trips (`put` then `get` within the
TTL returns exactly the stored payload); a request whose `temperature` is
absent, or present and strictly positive, is never stored. -/
theorem c1_roundtrip (c : ResponseCache) (r : Obj) (p : Json)
    (t t' : ℚ) (hen : c.enabled = true) :
    (alookup r "temperature" = some (Json.num 0) →
      ∀ c', c.put r p t = .ok c' → t' - t ≤ c.ttl →
        (c'.get r t').1 = some p) ∧
    (alookup r "temperature" = none → c.put r p t = .ok c) ∧
    (∀ q : ℚ, alookup r "temperature" = some (Json.num q) → 0 < q →
      c.put r p t = .ok c) := by
  refine ⟨?_, ?_, ?_⟩
  · intro htmp c' hput hfresh
    have hd0 : (decide ((0:ℚ) < 0)) = false := rfl
    have hskip : tempSkips (alookupD r "temperature" (Json.num 1))
        = .ok false := by
      simp [alookupD, htmp, tempSkips, hd0]
    simp only [ResponseCache.put, hen, not_true, if_false, hskip] at hput
    split at hput
    · split at hput
      · simp at hput
      · simp only [Except.ok.injEq] at hput
        subst hput
        simp only [ResponseCache.get, hen, not_true, if_false]
        rw [alookup_aset_self]
        simp [not_lt.mpr hfresh]
    · simp only [Except.ok.injEq] at hput
      subst hput
      simp only [ResponseCache.get, hen, not_true, if_false]
      rw [alookup_aset_self]
      simp [not_lt.mpr hfresh]
  · intro htmp
    have hd1 : (decide ((0:ℚ) < 1)) = true := rfl
    have hskip : tempSkips (alookupD r "temperature" (Json.num 1))
        = .ok true := by
      simp [alookupD, htmp, tempSkips, hd1]
    simp [ResponseCache.put, hen, hskip]
  · intro q htmp hq
    have hskip : tempSkips (alookupD r "temperature" (Json.num 1))
        = .ok true := by
      simp [alookupD, htmp, tempSkips, decide_eq_true hq]
    simp [ResponseCache.put, hen, hskip]

/-- Witness for `c1_roundtrip`: a concrete `temperature = 0` request
round-trips through a fresh cache, and concrete requests with absent and
with positive temperature are not stored. -/
theorem c1_roundtrip_w :
    ((⟨true, 300, 200,
        [(make_key [("temperature", Json.num 0)], ⟨Json.str ['x'], 0⟩)],
        0, 0, 0⟩ : ResponseCache).get [("temperature", Json.num 0)] 1).1
      = some (Json.str ['x']) ∧
    (ResponseCache.init true 300 200).put [] Json.null 0
      = .ok (ResponseCache.init true 300 200) ∧
    (ResponseCache.init true 300 200).put
        [("temperature", Json.num (7/10))] Json.null 0
      = .ok (ResponseCache.init true 300 200) := by
  refine ⟨?_, ?_, ?_⟩
  · exact (c1_roundtrip (ResponseCache.init true 300 200)
      [("temperature", Json.num 0)] (Json.str ['x']) 0 1 rfl).1 rfl _ rfl
      (by norm_num [ResponseCache.init])
  · exact (c1_roundtrip (ResponseCache.init true 300 200) [] Json.null 0 0
      rfl).2.1 rfl
  · exact (c1_roundtrip (ResponseCache.init true 300 200)
      [("temperature", Json.num (7/10))] Json.null 0 0 rfl).2.2 (7/10) rfl
      (by norm_num)

/-- Claim C2 as stated is false at `max_size = 0`: a `put` of a new,
storable key into a full (empty) cache raises `ValueError` from `min()`
on an empty dict instead of evicting an entry and incrementing the
eviction counter. -/
theorem c2_capacity_counterexample :
    (ResponseCache.init true 300 0).put [("temperature", Json.num 0)]
      Json.null 0 = .error PutErr.valueErr :=
  rfl

/-- Claim C2, amended: the entry count of a reachable cache never exceeds
`max_size`; and provided `max_size ≥ 1`, a storable `put` of a new key
into a full cache evicts exactly the entry with the globally smallest
`last_touched` timestamp and increments the eviction counter by one
(with `max_size = 0` such a `put` raises `ValueError` and stores
nothing). -/
theorem c2_capacity_and_eviction :
    (∀ c : ResponseCache, Reach c → c.cache.length ≤ c.max_size) ∧
    (∀ (c : ResponseCache) (r : Obj) (p : Json) (now : ℚ),
      c.enabled = true →
      tempSkips (alookupD r "temperature" (Json.num 1)) = .ok false →
      c.cache.length = c.max_size → 1 ≤ c.max_size →
      (alookup c.cache (make_key r)).isNone →
      (oldestPair c.cache).isSome ∧
      ∀ old, oldestPair c.cache = some old →
        old ∈ c.cache ∧ (∀ x ∈ c.cache, old.2.ts ≤ x.2.ts) ∧
        c.put r p now =
          .ok { c with
                cache := aset (make_key r) ⟨p, now⟩ (aerase old.1 c.cache),
                evictions := c.evictions + 1 } ∧
        (aset (make_key r) ⟨p, now⟩ (aerase old.1 c.cache)).length
          = c.max_size) := by
  constructor
  · intro c hreach
    induction hreach with
    | init en ttl m => simp [ResponseCache.init]
    | @step_get c r now hc ih =>
      unfold ResponseCache.get
      split
      · exact ih
      · split
        · simpa using ih
        · rename_i e he
          split
          · simp only []
            exact le_trans (length_aerase_le _ _) ih
          · simp only []
            rw [length_aset_isSome _ (by simp [he])]
            exact ih
    | @step_put c c' r resp now hc hput ih =>
      by_cases hen : c.enabled = true
      · simp only [ResponseCache.put, hen, not_true, if_false] at hput
        cases hts : tempSkips (alookupD r "temperature" (Json.num 1)) with
        | error e => rw [hts] at hput; simp at hput
        | ok b =>
          rw [hts] at hput
          cases b with
          | true =>
            simp only [Except.ok.injEq] at hput
            subst hput; exact ih
          | false =>
            simp only [] at hput
            split at hput
            · rename_i hcond
              split at hput
              · simp at hput
              · rename_i old hold
                simp only [Except.ok.injEq] at hput
                subst hput
                simp only []
                have h1 := alookup_isSome_of_mem (oldestPair_mem hold)
                have h2 := length_aerase_isSome h1
                have h3 := alookup_aerase_isNone (make_key r) old.1
                  (l := c.cache) (by simp_all)
                rw [length_aset_isNone _ h3]
                omega
            · rename_i hcond
              simp only [Except.ok.injEq] at hput
              subst hput
              simp only []
              by_cases hin : (alookup c.cache (make_key r)).isSome
              · rw [length_aset_isSome _ hin]; exact ih
              · rw [length_aset_isNone _ (by simpa using hin)]
                rcases not_and_or.mp hcond with h | h
                · omega
                · exact absurd (by simpa using hin) h
      · simp only [ResponseCache.put, hen] at hput
        simp at hput
        exact hput ▸ ih
    | @step_clear c hc ih =>
      simp [ResponseCache.clear]
  · intro c r p now hen hskip hlen hm hnone
    have hne : c.cache ≠ [] := by
      intro hnil
      rw [hnil] at hlen
      simp at hlen
      omega
    refine ⟨oldestPair_isSome hne, ?_⟩
    intro old hold
    refine ⟨oldestPair_mem hold, oldestPair_min hold, ?_, ?_⟩
    · simp only [ResponseCache.put, hen, not_true, if_false, hskip]
      rw [if_pos ⟨by omega, hnone⟩, hold]
    · have h1 := alookup_isSome_of_mem (oldestPair_mem hold)
      have h2 := length_aerase_isSome h1
      have h3 := alookup_aerase_isNone (make_key r) old.1 (l := c.cache)
        hnone
      rw [length_aset_isNone _ h3]
      omega

/-- Witness for `c2_capacity_and_eviction`: the invariant at a freshly
constructed cache, and the eviction behaviour at a concrete full
single-entry cache. -/
theorem c2_capacity_and_eviction_w :
    (ResponseCache.init true 300 2).cache.length ≤
      (ResponseCache.init true 300 2).max_size ∧
    (⟨true, 300, 1, [(['k'], ⟨Json.null, 5⟩)], 0, 0, 0⟩ :
        ResponseCache).put [("temperature", Json.num 0)] (Json.bool true) 9
      = .ok ⟨true, 300, 1,
          aset (make_key [("temperature", Json.num 0)]) ⟨Json.bool true, 9⟩
            (aerase ['k'] [(['k'], ⟨Json.null, 5⟩)]), 0, 0, 1⟩ := by
  constructor
  · exact c2_capacity_and_eviction.1 _ (Reach.init true 300 2)
  · exact ((c2_capacity_and_eviction.2
      (⟨true, 300, 1, [(['k'], ⟨Json.null, 5⟩)], 0, 0, 0⟩ : ResponseCache)
      [("temperature", Json.num 0)] (Json.bool true) 9 rfl rfl rfl
      (by norm_num) rfl).2 ⟨['k'], ⟨Json.null, 5⟩⟩ rfl).2.2.1

/-! ## `compressor.py`: `TokenCompressor`

Text is `List Char`. Each `re.sub` of the source is translated to a
dedicated scanning function implementing that pattern's substitution
semantics (leftmost, non-overlapping, greedy quantifiers). -/

/-- Python `\s` for ASCII text: the whitespace characters. -/
def pySpace (ch : Char) : Bool :=
  ch = ' ' ∨ ch = '\t' ∨ ch = '\n' ∨ ch = '\r' ∨ ch = '\x0b' ∨ ch = '\x0c'

/-- Split a text at newline characters (`text.split("\n")`). -/
def splitNl : List Char → List (List Char)
  | [] => [[]]
  | ch :: r =>
    if ch = '\n' then [] :: splitNl r
    else
      match splitNl r with
      | [] => [[ch]]
      | h :: t => (ch :: h) :: t

/-- Join lines with newlines (`"\n".join(lines)`). -/
def joinNl : List (List Char) → List Char
  | [] => []
  | l :: ls =>
    match ls with
    | [] => l
    | _ :: _ => l ++ '\n' :: joinNl ls

theorem splitNl_ne_nil (t : List Char) : splitNl t ≠ [] := by
  cases t with
  | nil => simp [splitNl]
  | cons ch r =>
    by_cases h : ch = '\n'
    · simp [splitNl, h]
    · simp only [splitNl, h, if_false]
      cases splitNl r <;> simp

theorem joinNl_splitNl (t : List Char) : joinNl (splitNl t) = t := by
  induction t with
  | nil => simp [splitNl, joinNl]
  | cons ch r ih =>
    by_cases h : ch = '\n'
    · subst h
      have hsp : splitNl ('\n' :: r) = [] :: splitNl r := by
        simp [splitNl]
      rw [hsp]
      cases hs : splitNl r with
      | nil => exact absurd hs (splitNl_ne_nil r)
      | cons a s =>
        show ([] : List Char) ++ '\n' :: joinNl (a :: s) = '\n' :: r
        rw [List.nil_append, ← hs, ih]
    · simp only [splitNl, h, if_false]
      cases hs : splitNl r with
      | nil => exact absurd hs (splitNl_ne_nil r)
      | cons a s =>
        cases s with
        | nil =>
          simp only [joinNl]
          rw [hs] at ih
          simp only [joinNl] at ih
          rw [ih]
        | cons b s' =>
          simp only [joinNl, List.cons_append]
          rw [hs] at ih
          simp only [joinNl] at ih
          rw [ih]

/-- Collapse each maximal run of `ch` to a single `ch` (`\n{2,}` → `\n`
for newlines, `"  +"` → `" "` for spaces). -/
def collapseRunAux (ch : Char) : Bool → List Char → List Char
  | _, [] => []
  | prev, a :: r =>
    if a = ch ∧ prev then collapseRunAux ch true r
    else a :: collapseRunAux ch (a == ch) r

/-- `re.sub(r'\n{3,}', '\n\n', text)`: cap each newline run at two. -/
def collapseNl3Aux : ℕ → List Char → List Char
  | _, [] => []
  | k, a :: r =>
    if a = '\n' then
      if k < 2 then '\n' :: collapseNl3Aux (k + 1) r
      else collapseNl3Aux k r
    else a :: collapseNl3Aux 0 r

/-- Remove trailing spaces and tabs from a line. -/
def rstripHT (l : List Char) : List Char :=
  (l.reverse.dropWhile (fun ch => ch = ' ' ∨ ch = '\t')).reverse

/-- Map over all elements except the last. -/
def mapButLast {α : Type} (f : α → α) : List α → List α
  | [] => []
  | a :: r =>
    match r with
    | [] => [a]
    | _ :: _ => f a :: mapButLast f r

/-- `re.sub(r'[ \t]+\n', '\n', text)`: strip horizontal whitespace before
each newline (the segment after the last newline keeps its trailing
whitespace). -/
def sub_trailws (t : List Char) : List Char :=
  joinNl (mapButLast rstripHT (splitNl t))

/-- Python `str.strip()`. -/
def pyStrip (l : List Char) : List Char :=
  ((l.dropWhile pySpace).reverse.dropWhile pySpace).reverse

/-- The fence marker. -/
def fence : List Char := "```".data

/-- Split a text at the first occurrence of `pat`:
`some (pre, post)` with `s = pre ++ pat ++ post`. -/
def findSub (pat : List Char) : List Char → Option (List Char × List Char)
  | [] => if pat.isPrefixOf ([] : List Char) then some ([], []) else none
  | a :: r =>
    if pat.isPrefixOf (a :: r) then some ([], (a :: r).drop pat.length)
    else (findSub pat r).map (fun pr => (a :: pr.1, pr.2))

theorem findSub_length {pat s pre post : List Char}
    (h : findSub pat s = some (pre, post)) :
    post.length + pat.length ≤ s.length := by
  induction s generalizing pre post with
  | nil =>
    by_cases hp : pat.isPrefixOf ([] : List Char)
    · simp only [findSub, hp, if_true, Option.some.injEq, Prod.mk.injEq]
        at h
      have : pat = [] := by
        have := List.isPrefixOf_iff_prefix.mp hp
        simpa using this
      simp [← h.2, this]
    · simp [findSub, hp] at h
  | cons a r ih =>
    by_cases hp : pat.isPrefixOf (a :: r)
    · simp only [findSub, hp, if_true, Option.some.injEq, Prod.mk.injEq]
        at h
      have hle : pat.length ≤ (a :: r).length :=
        (List.isPrefixOf_iff_prefix.mp hp).length_le
      rw [← h.2]
      simp only [List.length_drop]
      omega
    · simp only [findSub, hp, if_false] at h
      cases hf : findSub pat r with
      | none => rw [hf] at h; simp at h
      | some pr =>
        rw [hf] at h
        simp at h
        have hpp := @ih pr.1 pr.2 (by rw [hf])
        have hl : post.length = pr.2.length := by
          first
          | rw [h.2]
          | rw [← h.2]
        simp only [List.length_cons]
        omega

/-! ### Comment stripping (`_compress_code_blocks`, passes 1 and 2) -/

/-- Whether a line consists solely of whitespace. -/
def wsOnly (l : List Char) : Bool := l.all pySpace

/-- A line matched by `^\s*//`: leading whitespace then `//`. -/
def isSlashCmt (l : List Char) : Bool :=
  match l.dropWhile pySpace with
  | '/' :: '/' :: _ => true
  | _ => false

/-- A line matched by `^\s*#(?!!)`: leading whitespace then `#` not
followed by `!`. -/
def isHashCmt (l : List Char) : Bool :=
  match l.dropWhile pySpace with
  | '#' :: '!' :: _ => false
  | '#' :: _ => true
  | _ => false

/-- One multiline comment-removal sub (`(?m)^\s*CMT.*$\n?` → `''`), as a
transformation on the list of lines: the greedy `\s*` absorbs a maximal
run of whitespace-only lines directly preceding a comment line, so that
run is removed with the comment; removing a final line (which has no
trailing newline) leaves the preceding separator, i.e. an empty trailing
line. `buf` holds the pending run of whitespace-only lines. -/
def stripCmtAux (isC : List Char → Bool) (buf : List (List Char)) :
    List (List Char) → List (List Char)
  | [] => buf.reverse
  | [l] => if isC l then [[]] else buf.reverse ++ [l]
  | l :: rest =>
    if isC l then stripCmtAux isC [] rest
    else if wsOnly l then stripCmtAux isC (l :: buf) rest
    else buf.reverse ++ l :: stripCmtAux isC [] rest

/-- One comment-removal sub over a list of lines. -/
def stripCmtLines (isC : List Char → Bool) (lines : List (List Char)) :
    List (List Char) :=
  stripCmtAux isC [] lines

/-- Both comment-removal subs of `_compress_code_blocks`, `//` first. -/
def strip_comments (code : List Char) : List Char :=
  joinNl (stripCmtLines isHashCmt (stripCmtLines isSlashCmt
    (splitNl code)))

/-- The per-block replacement of `_compress_code_blocks`: strip comments,
collapse blank-line runs, trim trailing whitespace, `strip()`, and re-wrap
with the language tag. -/
def compress_code (lang code : List Char) : List Char :=
  fence ++ lang ++
    '\n' :: pyStrip (sub_trailws (collapseRunAux '\n' false
      (strip_comments code))) ++ '\n' :: fence

/-- `\w` (ASCII). -/
def isWordChar (ch : Char) : Bool := ch.isAlphanum || ch = '_'

theorem length_dropWhile_le (p : Char → Bool) (l : List Char) :
    (l.dropWhile p).length ≤ l.length := by
  induction l with
  | nil => simp [List.dropWhile]
  | cons a r ih =>
    by_cases h : p a
    · simp only [List.dropWhile, h, List.length_cons]
      omega
    · simp [List.dropWhile, h]

/-- `re.sub(r'```(\w*)\n([\s\S]*?)```', compress_code, text)`: scan left
to right; at each ``` try to read a language word, a newline and a body
up to the nearest closing ```; on failure continue scanning at the next
character (after the three consumed fence characters `r.drop 2` is the
remaining text). -/
def compress_code_blocks : List Char → List Char
  | [] => []
  | a :: r =>
    if fence.isPrefixOf (a :: r) then
      match h1 : (r.drop 2).dropWhile isWordChar with
      | '\n' :: body0 =>
        match h2 : findSub fence body0 with
        | some (code, after) =>
          compress_code ((r.drop 2).takeWhile isWordChar) code
            ++ compress_code_blocks after
        | none => a :: compress_code_blocks r
      | _ => a :: compress_code_blocks r
    else a :: compress_code_blocks r
termination_by l => l.length
decreasing_by
  · have e2 := findSub_length h2
    have e1 : ((r.drop 2).dropWhile isWordChar).length
        = body0.length + 1 := by rw [h1]; simp
    have e0 := length_dropWhile_le isWordChar (r.drop 2)
    have e3 : fence.length = 3 := rfl
    simp only [List.length_drop, List.length_cons] at e0 e1 ⊢
    omega
  · simp
  · simp
  · simp

/-! ### Duplicate-block elision (`_deduplicate_blocks`) -/

/-- The marker line emitted for a repeated block. -/
def sameAsAbove (h : List Char) : List Char :=
  "[... same as above (".data ++ h ++ ") ...]".data

/-- The scanning loop of `_deduplicate_blocks`: slide over the lines; a
3-line window whose joined length exceeds 100 and whose fingerprint was
seen is replaced by a marker (skipping the window); otherwise emit one
line, recording the fingerprint when the window exceeds the threshold.
Returns the emitted lines and the final `seen` list. -/
def dedupAux (hash : List Char → List Char) (seen : List (List Char)) :
    List (List Char) → List (List Char) × List (List Char)
  | [] => ([], seen)
  | l :: rest =>
    if 3 ≤ (l :: rest).length then
      if hash (joinNl ((l :: rest).take 3)) ∈ seen ∧
          100 < (joinNl ((l :: rest).take 3)).length then
        ((sameAsAbove (hash (joinNl ((l :: rest).take 3)))) ::
            (dedupAux hash seen ((l :: rest).drop 3)).1,
          (dedupAux hash seen ((l :: rest).drop 3)).2)
      else if 100 < (joinNl ((l :: rest).take 3)).length then
        (l :: (dedupAux hash
            (seen ++ [hash (joinNl ((l :: rest).take 3))]) rest).1,
          (dedupAux hash
            (seen ++ [hash (joinNl ((l :: rest).take 3))]) rest).2)
      else
        (l :: (dedupAux hash seen rest).1, (dedupAux hash seen rest).2)
    else
      (l :: (dedupAux hash seen rest).1, (dedupAux hash seen rest).2)
termination_by l => l.length
decreasing_by all_goals simp [List.length_drop] <;> omega

/-- `_deduplicate_blocks`, with the `md5`-based fingerprint abstracted as
`hash`: the identity on texts of fewer than 20 lines. -/
def deduplicate_blocks (hash : List Char → List Char) (t : List Char) :
    List Char :=
  if (splitNl t).length < 20 then t
  else joinNl (dedupAux hash [] (splitNl t)).1

/-! ### Phrase abbreviation (`_abbreviate_patterns`) -/

/-- Case-insensitive literal prefix test. -/
def ciMatches (pat s : List Char) : Bool :=
  (s.take pat.length).map Char.toLower = pat.map Char.toLower

/-- `re.sub(pat, repl, text, flags=re.IGNORECASE)` for a literal,
nonempty pattern: leftmost, non-overlapping replacement. -/
def ciReplaceAll (pat repl : List Char) : List Char → List Char
  | [] => []
  | a :: r =>
    if pat.isEmpty then a :: r
    else if ciMatches pat (a :: r) then
      repl ++ ciReplaceAll pat repl ((a :: r).drop pat.length)
    else a :: ciReplaceAll pat repl r
termination_by l => l.length
decreasing_by
  · have : pat.length ≠ 0 := by
      simpa [List.isEmpty_iff_length_eq_zero] using ‹¬pat.isEmpty = true›
    simp only [List.length_drop, List.length_cons]
    omega
  · simp

/-- The fixed substitution table of `_abbreviate_patterns`, in order. -/
def abbrevTable : List (List Char × List Char) :=
  [("Please note that ".data, "".data),
   ("It is important to note that ".data, "".data),
   ("As mentioned earlier, ".data, "".data),
   ("In order to ".data, "To ".data),
   ("Due to the fact that ".data, "Because ".data),
   ("At this point in time".data, "Now".data),
   ("In the event that ".data, "If ".data),
   ("For the purpose of ".data, "For ".data),
   ("With regard to ".data, "About ".data),
   ("In the context of ".data, "In ".data)]

/-- `_abbreviate_patterns`: apply the substitutions sequentially. -/
def abbreviate_patterns (t : List Char) : List Char :=
  abbrevTable.foldl (fun acc pr => ciReplaceAll pr.1 pr.2 acc) t

/-! ### Whitespace normalization and the full text pipeline -/

/-- `re.split(r'(```[\s\S]*?```)', text)`: alternately non-matching
segments and fenced segments (`true` marks a fence); a match pairs the
leftmost ``` with the nearest following ```. -/
def fenceSplit (t : List Char) : List (List Char × Bool) :=
  match h1 : findSub fence t with
  | none => [(t, false)]
  | some (pre, rest1) =>
    match h2 : findSub fence rest1 with
    | none => [(t, false)]
    | some (body, after) =>
      (pre, false) :: (fence ++ body ++ fence, true) :: fenceSplit after
termination_by t.length
decreasing_by
  have e1 := findSub_length h1
  have e2 := findSub_length h2
  simp only [fence] at e1 e2
  simp at e1 e2
  omega

/-- `_normalize_whitespace`: cap newline runs at two, strip trailing
horizontal whitespace, and collapse space runs outside fenced blocks. -/
def normalize_whitespace (t : List Char) : List Char :=
  ((fenceSplit (sub_trailws (collapseNl3Aux 0 t))).map
    (fun pb => if pb.2 then pb.1 else collapseRunAux ' ' false pb.1)).flatten

/-- `_compress_text`: the ordered passes, gated on the level. -/
def compress_text (hash : List Char → List Char) (level : ℕ)
    (t : List Char) : List Char :=
  let r1 := normalize_whitespace t
  let r2 := if 2 ≤ level then
      deduplicate_blocks hash (compress_code_blocks r1)
    else r1
  if 3 ≤ level then abbreviate_patterns r2 else r2

/-! ### Message-level compression (`compress_messages`) -/

/-- Exceptions message compression can raise: `KeyError` from a text part
without a `text` key (caught by the dispatcher, which then fails open) and
`TypeError` from non-string text or non-dict messages (uncaught). -/
inductive CompErr where
  | keyErr
  | typeErr
  deriving DecidableEq

/-- Error-propagating map (the Python `for` loop with exceptions). -/
def emapM {α β : Type} (f : α → Except CompErr β) :
    List α → Except CompErr (List β)
  | [] => .ok []
  | a :: r =>
    match f a with
    | .error e => .error e
    | .ok b =>
      match emapM f r with
      | .error e => .error e
      | .ok t => .ok (b :: t)

/-- One part of a multi-modal `content` list: a dict part with
`type == "text"` is copied with its `text` compressed (a missing `text`
key raises `KeyError`, a non-string one `TypeError` inside the re passes);
anything else passes through untouched. -/
def compress_part (hash : List Char → List Char) (level : ℕ) :
    Json → Except CompErr Json
  | Json.obj p =>
    match alookup p "type" with
    | some (Json.str s) =>
      if s = "text".data then
        match alookup p "text" with
        | some (Json.str txt) =>
          .ok (Json.obj
            (aset "text" (Json.str (compress_text hash level txt)) p))
        | some _ => .error .typeErr
        | none => .error .keyErr
      else .ok (Json.obj p)
    | _ => .ok (Json.obj p)
  | part => .ok part

/-- One message: copy, compress a string `content` or the text parts of a
list `content`, leave any other shape unchanged. -/
def compress_msg (hash : List Char → List Char) (level : ℕ) (msg : Obj) :
    Except CompErr Obj :=
  match alookup msg "content" with
  | some (Json.str s) =>
    .ok (aset "content" (Json.str (compress_text hash level s)) msg)
  | some (Json.arr parts) =>
    match emapM (compress_part hash level) parts with
    | .error e => .error e
    | .ok ps => .ok (aset "content" (Json.arr ps) msg)
  | _ => .ok msg

/-- `compress_messages`: level 0 returns its argument unchanged without
iterating; otherwise iterate over the messages (iterating a non-list
argument or copying a non-dict message is a `TypeError`). -/
def compress_messages (hash : List Char → List Char) (level : ℕ)
    (mj : Json) : Except CompErr Json :=
  if level = 0 then .ok mj
  else
    match mj with
    | Json.arr msgs =>
      match emapM (fun m =>
        match m with
        | Json.obj o =>
          match compress_msg hash level o with
          | .error e => .error e
          | .ok o' => .ok (Json.obj o')
        | _ => Except.error CompErr.typeErr) msgs with
      | .error e => .error e
      | .ok t => .ok (Json.arr t)
    | _ => .error .typeErr

/-! ### Compressor claims -/

/-- Claim C6: `compress_messages` at level 0 returns its input unchanged,
for every input. -/
theorem c6_level0_identity (hash : List Char → List Char) (mj : Json) :
    compress_messages hash 0 mj = .ok mj := by
  simp [compress_messages]

theorem wsOnly_dropWhile_nil {l : List Char} (h : wsOnly l = true) :
    l.dropWhile pySpace = [] := by
  rw [List.dropWhile_eq_nil_iff]
  intro x hx
  exact List.all_eq_true.mp h x hx

theorem wsOnly_not_isSlashCmt {l : List Char} (h : wsOnly l = true) :
    isSlashCmt l = false := by
  simp [isSlashCmt, wsOnly_dropWhile_nil h]

theorem wsOnly_not_isHashCmt {l : List Char} (h : wsOnly l = true) :
    isHashCmt l = false := by
  simp [isHashCmt, wsOnly_dropWhile_nil h]

/-- A line that is neither whitespace-only nor a comment survives one
comment-removal sub. -/
theorem mem_stripCmtAux (isC : List Char → Bool) {l : List Char}
    (hC : isC l = false) (hws : wsOnly l = false) :
    ∀ (buf : List (List Char)) (ls : List (List Char)), l ∈ ls →
      l ∈ stripCmtAux isC buf ls := by
  intro buf ls
  induction ls generalizing buf with
  | nil => intro h; simp at h
  | cons x rest ih =>
    intro hmem
    cases rest with
    | nil =>
      simp only [List.mem_singleton] at hmem
      subst hmem
      simp [stripCmtAux, hC]
    | cons y rest' =>
      rcases List.mem_cons.mp hmem with h1 | h1
      · subst h1
        simp [stripCmtAux, hC, hws]
      · by_cases hCx : isC x = true
        · simpa [stripCmtAux, hCx] using ih [] h1
        · by_cases hwx : wsOnly x = true
          · simpa [stripCmtAux, hCx, hwx]
              using ih (x :: buf) h1
          · simp only [stripCmtAux, hCx, hwx]
            simp only [Bool.false_eq_true, if_false, List.mem_append,
              List.mem_cons]
            exact Or.inr (Or.inr (ih [] h1))

/-- Every line emitted by one comment-removal sub is a non-comment line of
the input, a pending whitespace-only line, or the empty line left by
removing a final comment. -/
theorem stripCmtAux_output (isC : List Char → Bool)
    (hWs : ∀ y, wsOnly y = true → isC y = false) :
    ∀ (ls buf : List (List Char)),
      (∀ b ∈ buf, wsOnly b = true) →
      ∀ x ∈ stripCmtAux isC buf ls,
        isC x = false ∧ (x ∈ ls ∨ wsOnly x = true) := by
  intro ls
  induction ls with
  | nil =>
    intro buf hbuf x hx
    simp only [stripCmtAux, List.mem_reverse] at hx
    exact ⟨hWs x (hbuf x hx), Or.inr (hbuf x hx)⟩
  | cons a rest ih =>
    intro buf hbuf x hx
    cases rest with
    | nil =>
      by_cases hCa : isC a = true
      · simp only [stripCmtAux, hCa, if_true, List.mem_singleton] at hx
        subst hx
        exact ⟨hWs [] rfl, Or.inr rfl⟩
      · simp only [stripCmtAux, hCa, Bool.false_eq_true, if_false,
          List.mem_append, List.mem_reverse, List.mem_singleton] at hx
        rcases hx with hx | hx
        · exact ⟨hWs x (hbuf x hx), Or.inr (hbuf x hx)⟩
        · subst hx
          exact ⟨by simpa using hCa, Or.inl (by simp)⟩
    | cons b rest' =>
      by_cases hCa : isC a = true
      · simp only [stripCmtAux, hCa, if_true] at hx
        have := ih [] (by simp) x hx
        exact ⟨this.1, this.2.imp (fun h => List.mem_cons_of_mem _ h) id⟩
      · by_cases hwa : wsOnly a = true
        · simp only [stripCmtAux, hCa, hwa, Bool.false_eq_true, if_false,
            if_true] at hx
          have := ih (a :: buf)
            (by intro b' hb'
                rcases List.mem_cons.mp hb' with h | h
                · subst h; exact hwa
                · exact hbuf b' h) x hx
          refine ⟨this.1, ?_⟩
          rcases this.2 with h | h
          · exact Or.inl (List.mem_cons_of_mem _ h)
          · exact Or.inr h
        · simp only [stripCmtAux, hCa, hwa, Bool.false_eq_true, if_false,
            List.mem_append, List.mem_reverse, List.mem_cons] at hx
          rcases hx with hx | hx | hx
          · exact ⟨hWs x (hbuf x hx), Or.inr (hbuf x hx)⟩
          · subst hx
            exact ⟨by simpa using hCa, Or.inl (by simp)⟩
          · have := ih [] (by simp) x hx
            exact ⟨this.1,
              this.2.imp (fun h => List.mem_cons_of_mem _ h) id⟩

/-- Claim C8: through the comment-stripping subs of
`_compress_code_blocks` (applied at level ≥ 2 inside each fenced block),
a line beginning with `#!` survives, while no `//`- or `#`-comment line
(other than a shebang) remains in the output. -/
theorem c8_shebang_survives_comments_removed (lines : List (List Char)) :
    (∀ l ∈ lines, (['#', '!'] : List Char).isPrefixOf l →
      l ∈ stripCmtLines isHashCmt (stripCmtLines isSlashCmt lines)) ∧
    (∀ l ∈ stripCmtLines isHashCmt (stripCmtLines isSlashCmt lines),
      isSlashCmt l = false ∧ isHashCmt l = false) := by
  constructor
  · intro l hl hpre
    obtain ⟨t, ht⟩ := List.isPrefixOf_iff_prefix.mp hpre
    have hform : l = '#' :: '!' :: t := by rw [← ht]; rfl
    subst hform
    have hdw : ('#' :: '!' :: t).dropWhile pySpace = '#' :: '!' :: t := by
      rw [List.dropWhile_cons_of_neg]
      simp [pySpace]
    have hsl : isSlashCmt ('#' :: '!' :: t) = false := by
      simp [isSlashCmt, hdw]
    have hha : isHashCmt ('#' :: '!' :: t) = false := by
      simp [isHashCmt, hdw]
    have hws : wsOnly ('#' :: '!' :: t) = false := by
      simp [wsOnly, pySpace]
    exact mem_stripCmtAux isHashCmt hha hws []
      (stripCmtLines isSlashCmt lines)
      (mem_stripCmtAux isSlashCmt hsl hws [] lines hl)
  · intro l hl
    have h2 := stripCmtAux_output isHashCmt
      (fun y hy => wsOnly_not_isHashCmt hy)
      (stripCmtLines isSlashCmt lines) [] (by simp) l hl
    refine ⟨?_, h2.1⟩
    rcases h2.2 with h | h
    · exact (stripCmtAux_output isSlashCmt
        (fun y hy => wsOnly_not_isSlashCmt hy) lines [] (by simp) l h).1
    · exact wsOnly_not_isSlashCmt h

/-- Witness for `c8_shebang_survives_comments_removed` on a concrete
code block. -/
theorem c8_shebang_survives_comments_removed_w :
    "#! /bin".data ∈ stripCmtLines isHashCmt (stripCmtLines isSlashCmt
      ["#! /bin".data, "# c".data, "// d".data, "x".data]) ∧
    (isSlashCmt "x".data = false ∧ isHashCmt "x".data = false) := by
  constructor
  · exact (c8_shebang_survives_comments_removed
      ["#! /bin".data, "# c".data, "// d".data, "x".data]).1
      "#! /bin".data (by decide) (by decide)
  · exact (c8_shebang_survives_comments_removed
      ["#! /bin".data, "# c".data, "// d".data, "x".data]).2
      "x".data (by decide)

/-- If no 3-line window of the remaining lines exceeds the 100-character
threshold, the dedup loop copies its input and records nothing. -/
theorem dedupAux_small (hash : List Char → List Char) :
    ∀ (ls : List (List Char)) (seen : List (List Char)),
      (∀ w, w <:+: ls → w.length = 3 → (joinNl w).length ≤ 100) →
      dedupAux hash seen ls = (ls, seen) := by
  intro ls
  induction ls with
  | nil => intro seen _; simp [dedupAux]
  | cons l rest ih =>
    intro seen hwin
    have hrest : ∀ w, w <:+: rest → w.length = 3 →
        (joinNl w).length ≤ 100 :=
      fun w hw h3 => hwin w (List.infix_cons hw) h3
    by_cases h3 : 3 ≤ (l :: rest).length
    · have hwlen : ((l :: rest).take 3).length = 3 := by
        simp only [List.length_take]
        omega
      have hw100 := hwin _ (List.take_prefix 3 _).isInfix hwlen
      simp only [dedupAux, h3, if_true]
      rw [if_neg (fun hc => absurd hc.2 (not_lt.mpr hw100)),
        if_neg (not_lt.mpr hw100)]
      simp [ih seen hrest]
    · simp only [dedupAux, h3, if_false]
      simp [ih seen hrest]

/-- Every fingerprint the dedup loop records comes from a 3-line window
whose joined length exceeds 100 characters. -/
theorem dedupAux_seen (hash : List Char → List Char) :
    ∀ (n : ℕ) (ls : List (List Char)), ls.length ≤ n →
      ∀ (seen : List (List Char)) (x : List Char),
        x ∈ (dedupAux hash seen ls).2 →
        x ∈ seen ∨ ∃ w, w <:+: ls ∧ w.length = 3 ∧
          100 < (joinNl w).length ∧ x = hash (joinNl w) := by
  intro n
  induction n with
  | zero =>
    intro ls hl seen x hx
    have : ls = [] := List.length_eq_zero.mp (Nat.le_zero.mp hl)
    subst this
    simp only [dedupAux] at hx
    exact Or.inl hx
  | succ n ih =>
    intro ls hl seen x hx
    cases ls with
    | nil =>
      simp only [dedupAux] at hx
      exact Or.inl hx
    | cons l rest =>
      by_cases h3 : 3 ≤ (l :: rest).length
      · by_cases hc1 : hash (joinNl ((l :: rest).take 3)) ∈ seen ∧
            100 < (joinNl ((l :: rest).take 3)).length
        · rw [dedupAux, if_pos h3, if_pos hc1] at hx
          have hlen : ((l :: rest).drop 3).length ≤ n := by
            simp only [List.length_drop, List.length_cons]
            simp only [List.length_cons] at hl
            omega
          rcases ih _ hlen seen x hx with h | ⟨w, hw, hw3, hw100, hxw⟩
          · exact Or.inl h
          · exact Or.inr ⟨w, hw.trans (List.drop_suffix 3 _).isInfix,
              hw3, hw100, hxw⟩
        · by_cases hc2 : 100 < (joinNl ((l :: rest).take 3)).length
          · rw [dedupAux, if_pos h3, if_neg hc1, if_pos hc2] at hx
            have hlen : rest.length ≤ n := by
              simp only [List.length_cons] at hl
              omega
            rcases ih _ hlen _ x hx with h | ⟨w, hw, hw3, hw100, hxw⟩
            · rcases List.mem_append.mp h with h' | h'
              · exact Or.inl h'
              · refine Or.inr ⟨(l :: rest).take 3,
                  (List.take_prefix 3 _).isInfix, ?_, hc2, ?_⟩
                · simp only [List.length_take]
                  omega
                · simpa using h'
            · exact Or.inr ⟨w, List.infix_cons hw, hw3, hw100, hxw⟩
          · rw [dedupAux, if_pos h3, if_neg hc1, if_neg hc2] at hx
            have hlen : rest.length ≤ n := by
              simp only [List.length_cons] at hl
              omega
            rcases ih _ hlen _ x hx with h | ⟨w, hw, hw3, hw100, hxw⟩
            · exact Or.inl h
            · exact Or.inr ⟨w, List.infix_cons hw, hw3, hw100, hxw⟩
      · rw [dedupAux, if_neg h3] at hx
        have hlen : rest.length ≤ n := by
          simp only [List.length_cons] at hl
          omega
        rcases ih _ hlen _ x hx with h | ⟨w, hw, hw3, hw100, hxw⟩
        · exact Or.inl h
        · exact Or.inr ⟨w, List.infix_cons hw, hw3, hw100, hxw⟩

/-- A dedup scan step at a 3-line window at or below the 100-character
threshold (or with fewer than 3 lines remaining) emits the current line
unchanged, records nothing, and advances by one line — whatever the rest
of the text contains. -/
theorem dedupAux_short_step (hash : List Char → List Char)
    (seen : List (List Char)) (l : List Char) (rest : List (List Char))
    (hshort : (joinNl ((l :: rest).take 3)).length ≤ 100) :
    dedupAux hash seen (l :: rest)
      = (l :: (dedupAux hash seen rest).1,
         (dedupAux hash seen rest).2) := by
  by_cases h3 : 3 ≤ (l :: rest).length
  · rw [dedupAux, if_pos h3,
      if_neg (fun hc => absurd hc.2 (not_lt.mpr hshort)),
      if_neg (not_lt.mpr hshort)]
  · rw [dedupAux, if_neg h3]

/-- Every line the dedup loop emits is a line of the input or a
same-as-above marker standing for a 3-line window of the input whose
joined length exceeds 100 characters: a window at or below the threshold
is never replaced by a marker. -/
theorem dedupAux_out (hash : List Char → List Char) :
    ∀ (n : ℕ) (ls : List (List Char)), ls.length ≤ n →
      ∀ (seen : List (List Char)) (x : List Char),
        x ∈ (dedupAux hash seen ls).1 →
        x ∈ ls ∨ ∃ w, w <:+: ls ∧ w.length = 3 ∧
          100 < (joinNl w).length ∧
          x = sameAsAbove (hash (joinNl w)) := by
  intro n
  induction n with
  | zero =>
    intro ls hl seen x hx
    have : ls = [] := List.length_eq_zero.mp (Nat.le_zero.mp hl)
    subst this
    simp only [dedupAux] at hx
    simp at hx
  | succ n ih =>
    intro ls hl seen x hx
    cases ls with
    | nil =>
      simp only [dedupAux] at hx
      simp at hx
    | cons l rest =>
      by_cases h3 : 3 ≤ (l :: rest).length
      · by_cases hc1 : hash (joinNl ((l :: rest).take 3)) ∈ seen ∧
            100 < (joinNl ((l :: rest).take 3)).length
        · rw [dedupAux, if_pos h3, if_pos hc1] at hx
          rcases List.mem_cons.mp hx with h | h
          · refine Or.inr ⟨(l :: rest).take 3,
              (List.take_prefix 3 _).isInfix, ?_, hc1.2, h⟩
            simp only [List.length_take]
            omega
          · have hlen : ((l :: rest).drop 3).length ≤ n := by
              simp only [List.length_drop, List.length_cons]
              simp only [List.length_cons] at hl
              omega
            rcases ih _ hlen seen x h with h' | ⟨w, hw, hw3, hw100, hxw⟩
            · exact Or.inl ((List.drop_suffix 3 _).subset h')
            · exact Or.inr ⟨w, hw.trans (List.drop_suffix 3 _).isInfix,
                hw3, hw100, hxw⟩
        · by_cases hc2 : 100 < (joinNl ((l :: rest).take 3)).length
          · rw [dedupAux, if_pos h3, if_neg hc1, if_pos hc2] at hx
            rcases List.mem_cons.mp hx with h | h
            · exact Or.inl (by simp [h])
            · have hlen : rest.length ≤ n := by
                simp only [List.length_cons] at hl
                omega
              rcases ih _ hlen _ x h with h' | ⟨w, hw, hw3, hw100, hxw⟩
              · exact Or.inl (List.mem_cons_of_mem _ h')
              · exact Or.inr ⟨w, List.infix_cons hw, hw3, hw100, hxw⟩
          · rw [dedupAux, if_pos h3, if_neg hc1, if_neg hc2] at hx
            rcases List.mem_cons.mp hx with h | h
            · exact Or.inl (by simp [h])
            · have hlen : rest.length ≤ n := by
                simp only [List.length_cons] at hl
                omega
              rcases ih _ hlen _ x h with h' | ⟨w, hw, hw3, hw100, hxw⟩
              · exact Or.inl (List.mem_cons_of_mem _ h')
              · exact Or.inr ⟨w, List.infix_cons hw, hw3, hw100, hxw⟩
      · rw [dedupAux, if_neg h3] at hx
        rcases List.mem_cons.mp hx with h | h
        · exact Or.inl (by simp [h])
        · have hlen : rest.length ≤ n := by
            simp only [List.length_cons] at hl
            omega
          rcases ih _ hlen _ x h with h' | ⟨w, hw, hw3, hw100, hxw⟩
          · exact Or.inl (List.mem_cons_of_mem _ h')
          · exact Or.inr ⟨w, List.infix_cons hw, hw3, hw100, hxw⟩

/-- Claim C9: duplicate-block elision is the identity on texts of fewer
than 20 lines; a scan step at a 3-line window at or below 100 joined
characters always emits the line unchanged and records nothing, whatever
else the text contains; every marker line in the output stands for a
3-line window of the input longer than 100 characters, so a window at or
below the threshold is never rewritten; every recorded fingerprint comes
from such a long window; and a text none of whose 3-line windows exceeds
the threshold is returned verbatim. -/
theorem c9_dedup_thresholds (hash : List Char → List Char)
    (t : List Char) :
    ((splitNl t).length < 20 → deduplicate_blocks hash t = t) ∧
    (∀ (seen : List (List Char)) (l : List Char)
        (rest : List (List Char)),
      (joinNl ((l :: rest).take 3)).length ≤ 100 →
      dedupAux hash seen (l :: rest)
        = (l :: (dedupAux hash seen rest).1,
           (dedupAux hash seen rest).2)) ∧
    (∀ x ∈ (dedupAux hash [] (splitNl t)).1,
      x ∈ splitNl t ∨ ∃ w, w <:+: splitNl t ∧ w.length = 3 ∧
        100 < (joinNl w).length ∧
        x = sameAsAbove (hash (joinNl w))) ∧
    (∀ x ∈ (dedupAux hash [] (splitNl t)).2,
      ∃ w, w <:+: splitNl t ∧ w.length = 3 ∧
        100 < (joinNl w).length ∧ x = hash (joinNl w)) ∧
    ((∀ w, w <:+: splitNl t → w.length = 3 →
        (joinNl w).length ≤ 100) → deduplicate_blocks hash t = t) := by
  refine ⟨?_, ?_, ?_, ?_, ?_⟩
  · intro h
    simp [deduplicate_blocks, h]
  · intro seen l rest hshort
    exact dedupAux_short_step hash seen l rest hshort
  · intro x hx
    exact dedupAux_out hash (splitNl t).length _ le_rfl [] x hx
  · intro x hx
    rcases dedupAux_seen hash (splitNl t).length _ le_rfl [] x hx with
      h | h
    · simp at h
    · exact h
  · intro hwin
    by_cases h : (splitNl t).length < 20
    · simp [deduplicate_blocks, h]
    · simp only [deduplicate_blocks, h, if_false]
      rw [dedupAux_small hash _ [] hwin]
      exact joinNl_splitNl t

set_option maxRecDepth 8000 in
/-- Witness for `c9_dedup_thresholds`: identity on concrete short texts
(via the line-count threshold and via the window-length threshold), a
concrete short-window scan step, a concrete output line accounted for,
and a concrete recorded fingerprint coming from a concrete long
window. -/
theorem c9_dedup_thresholds_w :
    deduplicate_blocks (fun l => l.take 4) "a\nb\nc".data
      = "a\nb\nc".data ∧
    dedupAux (fun l => l.take 4) [] [['a'], ['b'], ['c'], ['d']]
      = (['a'] ::
          (dedupAux (fun l => l.take 4) [] [['b'], ['c'], ['d']]).1,
         (dedupAux (fun l => l.take 4) [] [['b'], ['c'], ['d']]).2) ∧
    (List.replicate 50 'a'
        ∈ splitNl (joinNl [List.replicate 50 'a', List.replicate 50 'b',
            List.replicate 50 'c']) ∨
      ∃ w, w <:+: splitNl (joinNl [List.replicate 50 'a',
          List.replicate 50 'b', List.replicate 50 'c']) ∧
        w.length = 3 ∧ 100 < (joinNl w).length ∧
        List.replicate 50 'a'
          = sameAsAbove ((fun l => List.take 4 l) (joinNl w))) ∧
    deduplicate_blocks (fun l => l.take 4) "x\ny\nz".data
      = "x\ny\nz".data ∧
    (∃ w, w <:+: splitNl (joinNl [List.replicate 50 'a',
          List.replicate 50 'b', List.replicate 50 'c']) ∧
      w.length = 3 ∧ 100 < (joinNl w).length ∧
      (joinNl [List.replicate 50 'a', List.replicate 50 'b',
          List.replicate 50 'c']).take 4
        = (fun l => List.take 4 l) (joinNl w)) := by
  refine ⟨?_, ?_, ?_, ?_, ?_⟩
  · exact (c9_dedup_thresholds (fun l => l.take 4) "a\nb\nc".data).1
      (by decide)
  · exact (c9_dedup_thresholds (fun l => l.take 4) []).2.1 [] ['a']
      [['b'], ['c'], ['d']] (by decide)
  · have hsp0 : splitNl (joinNl [List.replicate 50 'a',
        List.replicate 50 'b', List.replicate 50 'c'])
        = [List.replicate 50 'a', List.replicate 50 'b',
           List.replicate 50 'c'] := by decide
    have hc1 : ¬ ((fun l => List.take 4 l)
          (joinNl (([List.replicate 50 'a', List.replicate 50 'b',
            List.replicate 50 'c'] : List (List Char)).take 3))
          ∈ ([] : List (List Char)) ∧
        100 < (joinNl (([List.replicate 50 'a', List.replicate 50 'b',
          List.replicate 50 'c'] : List (List Char)).take 3)).length) :=
      fun hc => absurd hc.1 (List.not_mem_nil _)
    have f0 : dedupAux (fun l => List.take 4 l)
        ([] ++ [(fun l => List.take 4 l)
          (joinNl (([List.replicate 50 'a', List.replicate 50 'b',
            List.replicate 50 'c'] : List (List Char)).take 3))])
        ([] : List (List Char))
        = ([], [] ++ [(fun l => List.take 4 l)
          (joinNl (([List.replicate 50 'a', List.replicate 50 'b',
            List.replicate 50 'c'] : List (List Char)).take 3))]) := by
      rw [dedupAux]
    have f1 : dedupAux (fun l => List.take 4 l)
        ([] ++ [(fun l => List.take 4 l)
          (joinNl (([List.replicate 50 'a', List.replicate 50 'b',
            List.replicate 50 'c'] : List (List Char)).take 3))])
        [List.replicate 50 'c']
        = ([List.replicate 50 'c'], [] ++ [(fun l => List.take 4 l)
          (joinNl (([List.replicate 50 'a', List.replicate 50 'b',
            List.replicate 50 'c'] : List (List Char)).take 3))]) := by
      rw [dedupAux, if_neg (by norm_num), f0]
    have f2 : dedupAux (fun l => List.take 4 l)
        ([] ++ [(fun l => List.take 4 l)
          (joinNl (([List.replicate 50 'a', List.replicate 50 'b',
            List.replicate 50 'c'] : List (List Char)).take 3))])
        [List.replicate 50 'b', List.replicate 50 'c']
        = ([List.replicate 50 'b', List.replicate 50 'c'],
           [] ++ [(fun l => List.take 4 l)
          (joinNl (([List.replicate 50 'a', List.replicate 50 'b',
            List.replicate 50 'c'] : List (List Char)).take 3))]) := by
      rw [dedupAux, if_neg (by norm_num), f1]
    have f3 : dedupAux (fun l => List.take 4 l) []
        [List.replicate 50 'a', List.replicate 50 'b',
         List.replicate 50 'c']
        = (List.replicate 50 'a' :: List.replicate 50 'b' ::
            [List.replicate 50 'c'],
           [(fun l => List.take 4 l)
            (joinNl (([List.replicate 50 'a', List.replicate 50 'b',
              List.replicate 50 'c'] : List (List Char)).take 3))]) := by
      rw [dedupAux, if_pos (by norm_num), if_neg hc1,
        if_pos (by decide), f2]
      rfl
    have hx1 : List.replicate 50 'a'
        ∈ (dedupAux (fun l => l.take 4) []
            (splitNl (joinNl [List.replicate 50 'a',
              List.replicate 50 'b', List.replicate 50 'c']))).1 := by
      rw [hsp0, f3]
      simp
    exact (c9_dedup_thresholds (fun l => l.take 4)
      (joinNl [List.replicate 50 'a', List.replicate 50 'b',
        List.replicate 50 'c'])).2.2.1 _ hx1
  · refine (c9_dedup_thresholds (fun l => l.take 4)
      "x\ny\nz".data).2.2.2.2 ?_
    intro w hw h3
    have hsp : splitNl "x\ny\nz".data = [['x'], ['y'], ['z']] := by decide
    rw [hsp] at hw
    have hwe : w = [['x'], ['y'], ['z']] :=
      hw.eq_of_length (by simp [h3])
    subst hwe
    decide
  · have hsp : splitNl (joinNl [List.replicate 50 'a',
        List.replicate 50 'b', List.replicate 50 'c'])
        = [List.replicate 50 'a', List.replicate 50 'b',
           List.replicate 50 'c'] := by decide
    have hc1 : ¬ ((fun l => List.take 4 l)
          (joinNl (([List.replicate 50 'a', List.replicate 50 'b',
            List.replicate 50 'c'] : List (List Char)).take 3))
          ∈ ([] : List (List Char)) ∧
        100 < (joinNl (([List.replicate 50 'a', List.replicate 50 'b',
          List.replicate 50 'c'] : List (List Char)).take 3)).length) :=
      fun hc => absurd hc.1 (List.not_mem_nil _)
    have e0 : dedupAux (fun l => List.take 4 l)
        ([] ++ [(fun l => List.take 4 l)
          (joinNl (([List.replicate 50 'a', List.replicate 50 'b',
            List.replicate 50 'c'] : List (List Char)).take 3))])
        ([] : List (List Char))
        = ([], [] ++ [(fun l => List.take 4 l)
          (joinNl (([List.replicate 50 'a', List.replicate 50 'b',
            List.replicate 50 'c'] : List (List Char)).take 3))]) := by
      rw [dedupAux]
    have e1 : dedupAux (fun l => List.take 4 l)
        ([] ++ [(fun l => List.take 4 l)
          (joinNl (([List.replicate 50 'a', List.replicate 50 'b',
            List.replicate 50 'c'] : List (List Char)).take 3))])
        [List.replicate 50 'c']
        = ([List.replicate 50 'c'], [] ++ [(fun l => List.take 4 l)
          (joinNl (([List.replicate 50 'a', List.replicate 50 'b',
            List.replicate 50 'c'] : List (List Char)).take 3))]) := by
      rw [dedupAux, if_neg (by norm_num), e0]
    have e2 : dedupAux (fun l => List.take 4 l)
        ([] ++ [(fun l => List.take 4 l)
          (joinNl (([List.replicate 50 'a', List.replicate 50 'b',
            List.replicate 50 'c'] : List (List Char)).take 3))])
        [List.replicate 50 'b', List.replicate 50 'c']
        = ([List.replicate 50 'b', List.replicate 50 'c'],
           [] ++ [(fun l => List.take 4 l)
          (joinNl (([List.replicate 50 'a', List.replicate 50 'b',
            List.replicate 50 'c'] : List (List Char)).take 3))]) := by
      rw [dedupAux, if_neg (by norm_num), e1]
    have e3 : dedupAux (fun l => List.take 4 l) []
        [List.replicate 50 'a', List.replicate 50 'b',
         List.replicate 50 'c']
        = (List.replicate 50 'a' :: List.replicate 50 'b' ::
            [List.replicate 50 'c'],
           [(fun l => List.take 4 l)
            (joinNl (([List.replicate 50 'a', List.replicate 50 'b',
              List.replicate 50 'c'] : List (List Char)).take 3))]) := by
      rw [dedupAux, if_pos (by norm_num), if_neg hc1,
        if_pos (by decide), e2]
      rfl
    have hx : (joinNl [List.replicate 50 'a', List.replicate 50 'b',
        List.replicate 50 'c']).take 4
        ∈ (dedupAux (fun l => List.take 4 l) []
            (splitNl (joinNl [List.replicate 50 'a',
              List.replicate 50 'b', List.replicate 50 'c']))).2 := by
      rw [hsp, e3]
      simp
    exact (c9_dedup_thresholds (fun l => l.take 4)
      (joinNl [List.replicate 50 'a', List.replicate 50 'b',
        List.replicate 50 'c'])).2.2.2.1 _ hx

/-! ## `server.py`: the `proxy` request handler

The chat-dispatch logic of `create_app`'s `proxy` route. JSON
encoding/decoding (`json.loads` / `json.dumps(...).encode()`) and the
upstream HTTP exchange are external collaborators, passed in as the
`parse` and `serialize` functions and the `upstream` response; header
hygiene and the stats recorder do not affect the cache or the forwarded
body and are not modelled. -/

/-- Raw request/response body bytes. -/
abbrev Body := List ℕ

/-- The buffered upstream response: status code and the outcome of
`resp.json()` (`none` when that call raises). -/
structure UResp where
  status : ℕ
  jsonBody : Option Json

/-- How a dispatched request ends: answered from cache, forwarded
(streamed or buffered), or an uncaught exception. -/
inductive PResult where
  | cached (payload : Json)
  | forwarded (streamed : Bool)
  | crashed

/-- Observable outcome of one dispatch: whether `cache.get` and
`cache.put` were invoked, the cache state afterwards, the body bytes sent
upstream (`none` when the upstream is never contacted), the parsed body
that was re-serialized and forwarded after compression (`none` when the
original bytes are forwarded unparsed), and the result. -/
structure POut where
  didLookup : Bool
  didStore : Bool
  cacheAfter : ResponseCache
  sentBody : Option Body
  sentData : Option Obj
  result : PResult

/-- Python truthiness of a JSON value (`data.get("stream", False)` used
as a condition). -/
def jsonTruthy : Json → Bool
  | Json.null => false
  | Json.bool b => b
  | Json.num q => decide (q ≠ 0)
  | Json.str s => !s.isEmpty
  | Json.arr l => !l.isEmpty
  | Json.obj o => !o.isEmpty

/-- The forwarding phase: the streaming branch relays without ever
touching the cache; the buffered branch forwards and then, for a chat
request answered 200 with the cache enabled, parses the upstream JSON and
the original (pre-compression) body and stores the pair — a parse failure
on either silently skips the store, a `ValueError` inside `put` is caught,
a `TypeError` is not. -/
def forwardPhase (parse : Body → Option Json) (cch : ResponseCache)
    (is_chat : Bool) (origBody sendBody : Body) (sentData : Option Obj)
    (didL is_streaming : Bool) (now : ℚ) (upstream : UResp) : POut :=
  if is_streaming then
    ⟨didL, false, cch, some sendBody, sentData, .forwarded true⟩
  else if is_chat && (upstream.status == 200) && cch.enabled then
    match upstream.jsonBody with
    | none => ⟨didL, false, cch, some sendBody, sentData, .forwarded false⟩
    | some rd =>
      match parse origBody with
      | none =>
        ⟨didL, false, cch, some sendBody, sentData, .forwarded false⟩
      | some (Json.obj od) =>
        match cch.put od rd now with
        | .ok c2 =>
          ⟨didL, true, c2, some sendBody, sentData, .forwarded false⟩
        | .error .valueErr =>
          ⟨didL, true, cch, some sendBody, sentData, .forwarded false⟩
        | .error .typeErr =>
          ⟨didL, true, cch, some sendBody, sentData, .crashed⟩
      | some _ => ⟨didL, true, cch, some sendBody, sentData, .crashed⟩
  else ⟨didL, false, cch, some sendBody, sentData, .forwarded false⟩

/-- The compression step: when the parsed body has a `messages` field it
is rewritten through `compress_messages` and the body re-serialized; a
`KeyError` is caught by the surrounding `except` and the original body is
forwarded as-is; a `TypeError` propagates. -/
def compressPhase (parse : Body → Option Json) (serialize : Obj → Body)
    (hash : List Char → List Char) (level : ℕ) (cch : ResponseCache)
    (is_chat : Bool) (body : Body) (data : Obj)
    (didL is_streaming : Bool) (now : ℚ) (upstream : UResp) : POut :=
  match alookup data "messages" with
  | none =>
    forwardPhase parse cch is_chat body body none didL is_streaming now
      upstream
  | some mj =>
    match compress_messages hash level mj with
    | .ok mj' =>
      forwardPhase parse cch is_chat body
        (serialize (aset "messages" mj' data))
        (some (aset "messages" mj' data)) didL is_streaming now upstream
    | .error .keyErr =>
      forwardPhase parse cch is_chat body body none didL is_streaming now
        upstream
    | .error .typeErr => ⟨didL, false, cch, none, none, .crashed⟩

/-- The `proxy` route handler: on a non-empty POST body for a path ending
in `/chat/completions`, parse it (a decode failure fails open), read the
`stream` flag, consult the cache for non-streaming requests when enabled,
compress the messages, and forward; `json.loads` returning a non-dict
makes the subsequent `.get` raise (crash). -/
def proxy (parse : Body → Option Json) (serialize : Obj → Body)
    (hash : List Char → List Char) (level : ℕ) (cch : ResponseCache)
    (method : String) (path : List Char) (body : Body) (now : ℚ)
    (upstream : UResp) : POut :=
  let is_chat := "/chat/completions".data.isSuffixOf path &&
    (method == "POST")
  if is_chat && !body.isEmpty then
    match parse body with
    | none =>
      forwardPhase parse cch is_chat body body none false false now
        upstream
    | some (Json.obj data) =>
      let is_streaming :=
        jsonTruthy (alookupD data "stream" (Json.bool false))
      if !is_streaming && cch.enabled then
        match cch.get data now with
        | (some payload, c1) => ⟨true, false, c1, none, none,
            .cached payload⟩
        | (none, c1) =>
          compressPhase parse serialize hash level c1 is_chat body data
            true is_streaming now upstream
      else
        compressPhase parse serialize hash level cch is_chat body data
          false is_streaming now upstream
    | some _ => ⟨false, false, cch, none, none, .crashed⟩
  else
    forwardPhase parse cch is_chat body body none false false now upstream

/-! ### Dispatcher claims -/

theorem alookup_aset_ne {κ α : Type} [DecidableEq κ] {k k' : κ} (v : α)
    (l : List (κ × α)) (h : k' ≠ k) :
    alookup (aset k v l) k' = alookup l k' := by
  induction l with
  | nil =>
    simp only [aset, alookup]
    rw [if_neg (fun he => h he.symm)]
  | cons p r ih =>
    obtain ⟨k₀, v₀⟩ := p
    by_cases h0 : k₀ = k
    · subst h0
      simp only [aset, if_pos rfl, alookup]
      rw [if_neg (fun he => h he.symm), if_neg (fun he => h he.symm)]
    · simp only [aset, h0, if_false, alookup]
      by_cases h1 : k₀ = k'
      · simp [h1]
      · simp [h1, ih]

/-- The field the dispatcher records as re-serialized is the one passed
in. -/
theorem forwardPhase_sentData (parse : Body → Option Json)
    (cch : ResponseCache) (is_chat : Bool) (origBody sendBody : Body)
    (sd : Option Obj) (didL is_streaming : Bool) (now : ℚ)
    (upstream : UResp) :
    (forwardPhase parse cch is_chat origBody sendBody sd didL
      is_streaming now upstream).sentData = sd := by
  unfold forwardPhase
  split
  · rfl
  · split
    · split
      · rfl
      · split <;> try rfl
        split <;> rfl
    · rfl

/-- A buffered forward whose original body does not parse performs no
store and forwards the given bytes. -/
theorem forwardPhase_parse_fail (parse : Body → Option Json)
    (cch : ResponseCache) (is_chat : Bool) (origBody sendBody : Body)
    (sd : Option Obj) (didL : Bool) (now : ℚ) (upstream : UResp)
    (hp : parse origBody = none) :
    forwardPhase parse cch is_chat origBody sendBody sd didL false now
      upstream = ⟨didL, false, cch, some sendBody, sd, .forwarded false⟩
    := by
  unfold forwardPhase
  rw [if_neg (by simp)]
  split
  · split
    · rfl
    · rw [hp]
  · rfl

/-- Claim C4: a chat request whose parsed body has `stream == true` never
triggers a cache lookup or a cache store and leaves the cache state
untouched, whatever its temperature and whatever the upstream returns. -/
theorem c4_streaming_bypasses_cache (parse : Body → Option Json)
    (serialize : Obj → Body) (hash : List Char → List Char) (level : ℕ)
    (cch : ResponseCache) (method : String) (path : List Char)
    (body : Body) (now : ℚ) (upstream : UResp) (data : Obj)
    (hchat : "/chat/completions".data.isSuffixOf path = true)
    (hm : method = "POST") (hb : body ≠ [])
    (hp : parse body = some (Json.obj data))
    (hs : alookup data "stream" = some (Json.bool true)) :
    (proxy parse serialize hash level cch method path body now
      upstream).didLookup = false ∧
    (proxy parse serialize hash level cch method path body now
      upstream).didStore = false ∧
    (proxy parse serialize hash level cch method path body now
      upstream).cacheAfter = cch := by
  have hbe : body.isEmpty = false := by
    cases body
    · exact absurd rfl hb
    · rfl
  have hstr : jsonTruthy (alookupD data "stream" (Json.bool false))
      = true := by simp [alookupD, hs, jsonTruthy]
  simp only [proxy, hchat, hm, hbe, hp, hstr, beq_self_eq_true,
    Bool.and_self, Bool.not_true, Bool.false_and, Bool.true_and,
    Bool.and_false, Bool.not_false, if_true, if_false]
  rw [if_neg (by simp)]
  unfold compressPhase
  split
  · simp [forwardPhase]
  · split
    · simp [forwardPhase]
    · simp [forwardPhase]
    · simp

/-- Witness for `c4_streaming_bypasses_cache` at a concrete streaming
request. -/
theorem c4_streaming_bypasses_cache_w :
    (proxy (fun _ => some (Json.obj [("stream", Json.bool true)]))
      (fun _ => []) (fun l => l) 2 (ResponseCache.init true 300 200)
      "POST" "/chat/completions".data [0] 0 ⟨200, none⟩).didLookup
      = false ∧
    (proxy (fun _ => some (Json.obj [("stream", Json.bool true)]))
      (fun _ => []) (fun l => l) 2 (ResponseCache.init true 300 200)
      "POST" "/chat/completions".data [0] 0 ⟨200, none⟩).didStore
      = false ∧
    (proxy (fun _ => some (Json.obj [("stream", Json.bool true)]))
      (fun _ => []) (fun l => l) 2 (ResponseCache.init true 300 200)
      "POST" "/chat/completions".data [0] 0 ⟨200, none⟩).cacheAfter
      = ResponseCache.init true 300 200 :=
  c4_streaming_bypasses_cache _ _ _ 2 (ResponseCache.init true 300 200)
    "POST" _ [0] 0 ⟨200, none⟩ [("stream", Json.bool true)]
    (by decide) rfl (by simp) rfl rfl

/-- Claim C5: a POST to a chat path whose body is not valid JSON fails
open — the dispatcher forwards the original bytes unchanged, returns a
normal buffered forward (no error), performs no cache lookup or store and
leaves the cache untouched. -/
theorem c5_malformed_body_fails_open (parse : Body → Option Json)
    (serialize : Obj → Body) (hash : List Char → List Char) (level : ℕ)
    (cch : ResponseCache) (method : String) (path : List Char)
    (body : Body) (now : ℚ) (upstream : UResp)
    (hchat : "/chat/completions".data.isSuffixOf path = true)
    (hm : method = "POST") (hb : body ≠ [])
    (hp : parse body = none) :
    proxy parse serialize hash level cch method path body now upstream
      = ⟨false, false, cch, some body, none, .forwarded false⟩ := by
  have hbe : body.isEmpty = false := by
    cases body
    · exact absurd rfl hb
    · rfl
  simp only [proxy, hchat, hm, hbe, hp, beq_self_eq_true, Bool.and_self,
    Bool.not_false, Bool.true_and, if_true]
  exact forwardPhase_parse_fail parse cch _ body body none false now
    upstream hp

/-- Witness for `c5_malformed_body_fails_open` at a concrete unparseable
body. -/
theorem c5_malformed_body_fails_open_w :
    proxy (fun _ => none) (fun _ => []) (fun l => l) 2
      (ResponseCache.init true 300 200) "POST" "/chat/completions".data
      [7, 7] 0 ⟨200, some Json.null⟩
      = ⟨false, false, ResponseCache.init true 300 200, some [7, 7],
          none, .forwarded false⟩ :=
  c5_malformed_body_fails_open _ _ _ 2 (ResponseCache.init true 300 200)
    "POST" _ [7, 7] 0 ⟨200, some Json.null⟩ (by decide) rfl (by simp) rfl

/-- Lookup in a JSON value, for stating frame conditions: `none` on
non-objects. -/
def jget : Json → String → Option Json
  | Json.obj o, k => alookup o k
  | _, _ => none

/-- `compress_msg` only rewrites the `content` field. -/
theorem compress_msg_frame (hash : List Char → List Char) (level : ℕ)
    (msg msg' : Obj) (h : compress_msg hash level msg = .ok msg') :
    ∀ k, k ≠ "content" → alookup msg' k = alookup msg k := by
  intro k hk
  cases hc : alookup msg "content" with
  | none =>
    simp only [compress_msg, hc, Except.ok.injEq] at h
    rw [← h]
  | some j =>
    cases j with
    | str s =>
      simp only [compress_msg, hc, Except.ok.injEq] at h
      rw [← h]
      exact alookup_aset_ne _ msg hk
    | arr parts =>
      simp only [compress_msg, hc] at h
      cases he : emapM (compress_part hash level) parts with
      | error e => rw [he] at h; simp at h
      | ok ps =>
        rw [he] at h
        simp only [Except.ok.injEq] at h
        rw [← h]
        exact alookup_aset_ne _ msg hk
    | null => simp only [compress_msg, hc, Except.ok.injEq] at h; rw [← h]
    | bool b =>
      simp only [compress_msg, hc, Except.ok.injEq] at h; rw [← h]
    | num q =>
      simp only [compress_msg, hc, Except.ok.injEq] at h; rw [← h]
    | obj o =>
      simp only [compress_msg, hc, Except.ok.injEq] at h; rw [← h]

/-- Per-element frame property through the message loop. -/
theorem emapM_msgs_frame (hash : List Char → List Char) (level : ℕ) :
    ∀ (msgs out : List Json),
      emapM (fun m =>
        match m with
        | Json.obj o =>
          match compress_msg hash level o with
          | .error e => .error e
          | .ok o' => .ok (Json.obj o')
        | _ => Except.error CompErr.typeErr) msgs = .ok out →
      out.length = msgs.length ∧
      ∀ i, i < msgs.length → ∀ k, k ≠ "content" →
        jget (out.getD i Json.null) k = jget (msgs.getD i Json.null) k := by
  intro msgs
  induction msgs with
  | nil =>
    intro out h
    simp only [emapM, Except.ok.injEq] at h
    subst h
    exact ⟨rfl, by intro i hi; simp at hi⟩
  | cons m rest ih =>
    intro out h
    cases m with
    | obj o =>
      simp only [emapM] at h
      cases hcm : compress_msg hash level o with
      | error e => rw [hcm] at h; simp at h
      | ok o' =>
        rw [hcm] at h
        cases hrest : emapM (fun m =>
            match m with
            | Json.obj o =>
              match compress_msg hash level o with
              | .error e => .error e
              | .ok o' => .ok (Json.obj o')
            | _ => Except.error CompErr.typeErr) rest with
        | error e => rw [hrest] at h; simp at h
        | ok t =>
          rw [hrest] at h
          simp only [Except.ok.injEq] at h
          subst h
          obtain ⟨hlen, hframe⟩ := ih t hrest
          refine ⟨by simp [hlen], ?_⟩
          intro i hi k hk
          cases i with
          | zero =>
            simp only [List.getD_cons_zero, jget]
            exact compress_msg_frame hash level o o' hcm k hk
          | succ i' =>
            simp only [List.getD_cons_succ]
            exact hframe i' (by simpa using hi) k hk
    | null => simp [emapM] at h
    | bool b => simp [emapM] at h
    | num q => simp [emapM] at h
    | str s => simp [emapM] at h
    | arr l => simp [emapM] at h

/-- Claim C7: compression mutates only textual content — message fields
other than `content` are preserved, non-text parts pass through untouched
with all their fields, and the dispatcher rewrites only the `messages`
field of a parsed chat request. -/
theorem c7_frame_conditions :
    (∀ (hash : List Char → List Char) (level : ℕ)
        (msgs out : List Json),
      compress_messages hash level (Json.arr msgs)
        = .ok (Json.arr out) →
      out.length = msgs.length ∧
      ∀ i, i < msgs.length → ∀ k, k ≠ "content" →
        jget (out.getD i Json.null) k
          = jget (msgs.getD i Json.null) k) ∧
    (∀ (hash : List Char → List Char) (level : ℕ) (part : Json),
      jget part "type" ≠ some (Json.str "text".data) →
      compress_part hash level part = .ok part) ∧
    (∀ (parse : Body → Option Json) (serialize : Obj → Body)
        (hash : List Char → List Char) (level : ℕ)
        (cch : ResponseCache) (method : String) (path : List Char)
        (body : Body) (now : ℚ) (upstream : UResp) (data d' : Obj),
      parse body = some (Json.obj data) →
      (proxy parse serialize hash level cch method path body now
        upstream).sentData = some d' →
      ∀ k, k ≠ "messages" → alookup d' k = alookup data k) := by
  refine ⟨?_, ?_, ?_⟩
  · intro hash level msgs out h
    by_cases h0 : level = 0
    · subst h0
      simp only [compress_messages, eq_self_iff_true, if_true,
        Except.ok.injEq, Json.arr.injEq] at h
      subst h
      exact ⟨rfl, fun i hi k hk => rfl⟩
    · simp only [compress_messages, h0, if_false] at h
      cases he : emapM (fun m =>
          match m with
          | Json.obj o =>
            match compress_msg hash level o with
            | .error e => .error e
            | .ok o' => .ok (Json.obj o')
          | _ => Except.error CompErr.typeErr) msgs with
      | error e => rw [he] at h; simp at h
      | ok t =>
        rw [he] at h
        simp only [Except.ok.injEq, Json.arr.injEq] at h
        subst h
        exact emapM_msgs_frame hash level msgs t he
  · intro hash level part hne
    cases part with
    | obj p =>
      simp only [jget] at hne
      cases ht : alookup p "type" with
      | none => simp [compress_part, ht]
      | some j =>
        cases j with
        | str s =>
          rw [ht] at hne
          have : ¬ s = "text".data := by
            intro hcon
            exact hne (by rw [hcon])
          simp [compress_part, ht, this]
        | null => simp [compress_part, ht]
        | bool b => simp [compress_part, ht]
        | num q => simp [compress_part, ht]
        | arr l => simp [compress_part, ht]
        | obj o => simp [compress_part, ht]
    | null => rfl
    | bool b => rfl
    | num q => rfl
    | str s => rfl
    | arr l => rfl
  · intro parse serialize hash level cch method path body now upstream
      data d' hp hsd k hk
    revert hsd
    simp only [proxy]
    split
    · split
      · rename_i heq
        rw [hp] at heq
        simp at heq
      · rename_i data0 heq
        rw [hp] at heq
        simp only [Option.some.injEq, Json.obj.injEq] at heq
        subst heq
        split
        · split
          · intro hsd
            simp at hsd
          · unfold compressPhase
            split
            · rw [forwardPhase_sentData]
              intro hsd
              simp at hsd
            · split
              · rw [forwardPhase_sentData]
                intro hsd
                simp only [Option.some.injEq] at hsd
                subst hsd
                exact alookup_aset_ne _ data hk
              · rw [forwardPhase_sentData]
                intro hsd
                simp at hsd
              · intro hsd
                simp at hsd
        · unfold compressPhase
          split
          · rw [forwardPhase_sentData]
            intro hsd
            simp at hsd
          · split
            · rw [forwardPhase_sentData]
              intro hsd
              simp only [Option.some.injEq] at hsd
              subst hsd
              exact alookup_aset_ne _ data hk
            · rw [forwardPhase_sentData]
              intro hsd
              simp at hsd
            · intro hsd
              simp at hsd
      · intro hsd
        simp at hsd
    · rw [forwardPhase_sentData]
      intro hsd
      simp at hsd

/-- Witness for `c7_frame_conditions` at concrete messages, a concrete
image part, and a concrete dispatched request. -/
theorem c7_frame_conditions_w :
    jget ([Json.obj [("role", Json.str ['u'])]].getD 0 Json.null) "role"
      = jget ([Json.obj [("role", Json.str ['u'])]].getD 0 Json.null)
          "role" ∧
    compress_part (fun l => l) 2
        (Json.obj [("type", Json.str "image".data)])
      = .ok (Json.obj [("type", Json.str "image".data)]) ∧
    alookup (aset "messages" (Json.arr [])
        [("messages", Json.arr []), ("model", Json.str ['m'])]) "model"
      = alookup [("messages", Json.arr []), ("model", Json.str ['m'])]
          "model" := by
  refine ⟨?_, ?_, ?_⟩
  · exact (c7_frame_conditions.1 (fun l => l) 2
      [Json.obj [("role", Json.str ['u'])]]
      [Json.obj [("role", Json.str ['u'])]] rfl).2 0 (by norm_num)
      "role" (by decide)
  · exact c7_frame_conditions.2.1 (fun l => l) 2
      (Json.obj [("type", Json.str "image".data)]) (by simp [jget, alookup])
  · exact c7_frame_conditions.2.2
      (fun _ => some (Json.obj [("messages", Json.arr []),
        ("model", Json.str ['m'])]))
      (fun _ => []) (fun l => l) 0 (ResponseCache.init false 300 200)
      "POST" "/chat/completions".data [1] 0 ⟨500, none⟩
      [("messages", Json.arr []), ("model", Json.str ['m'])]
      (aset "messages" (Json.arr [])
        [("messages", Json.arr []), ("model", Json.str ['m'])])
      rfl rfl "model" (by decide)

end AipProxy
